import Mathlib

/-!
Shallow embedding of the AnimImage GIF LZW decoder core.

The embedding follows the working decoder `LZWAlgorythm` (the third source
unit's version, the one that compiles: it includes `myvector.h` and uses the
`myvector` helpers) and the `myvector` dynamic-array routines.  Machine
integers are modelled as `Nat`: every quantity the decoder manipulates
(`uint16_t` codes, `unsigned int` sizes) stays far below 2^16 for the code
sizes the format allows, so no wrap-around is reachable and none is modelled.
Byte values read through the `unsigned char *` input pointer are reduced
mod 256 at the read site, mirroring the C type.

Totalisation choices (the C is undefined at these points, the model picks a
definite value and every theorem below is about the model):
* reading the input buffer past `len` yields byte 0 (the C `memcpy` reads
  whatever follows the allocation);
* indexing the code table out of logical bounds yields the empty entry `[]`
  (the C reads a `calloc`-zeroed or stale `myvector` slot);
* the first element of an empty table entry is 0 (`headD 0`).

The C accumulator is a `uint32_t` whose top byte keeps a stale value after
the 3-byte `memcpy`; since `offset ≤ 7` and `mask < 2^13`, bits 24..31 can
never reach `code`, so the model rebuilds the accumulator from the three
bytes alone.
-/

namespace AnimImage

/-- The decoder status enum `t_status` from the C source. -/
inductive Tstatus where
  | MUSTCLEAR
  | FIRST
  | NORMAL
  | DEFERRED
deriving DecidableEq, Repr

/-- `MAX_CSIZE` from the C source: the code width cap. -/
def MAX_CSIZE : Nat := 12

/-- The local state of one `LZWAlgorythm` invocation: the variables of the C
function that live across loop iterations.  `lzw_table` is the logical
content of the code table (a `myvector` of `myvector`s in C, here a list of
entries in table order), `lzw_codes` the output stream, `s` the scratch
sequence built for the next insertion, `oldcode` the previously read code,
`offset`/`ind` the bit reader position. -/
structure LZWState where
  csize : Nat
  mask : Nat
  flag : Tstatus
  lzw_table : List (List Nat)
  lzw_codes : List Nat
  s : List Nat
  oldcode : Nat
  offset : Nat
  ind : Nat
deriving DecidableEq, Repr

/-- Result of a decode: `ok` models `return &lzw_codes` (the function hands
back the accumulated output), `badCode` models the `printf("Bad LZW code");
return 0;` paths, `fuelOut` is the out-of-fuel marker of the loop model
(shown unreachable for the fuel `LZWAlgorythm` supplies). -/
inductive LZWResult where
  | ok (codes : List Nat)
  | badCode
  | fuelOut
deriving DecidableEq, Repr

/-- One code extraction: `memcpy(&accumulator, bytes + ind, 3);
accumulator >>= offset; code = accumulator & mask;` with the buffer read
little-endian, bytes reduced mod 256 (`unsigned char`). -/
def readCode (bytes : Nat → Nat) (st : LZWState) : Nat :=
  let accumulator :=
    bytes st.ind % 256 + 256 * (bytes (st.ind + 1) % 256) +
      65536 * (bytes (st.ind + 2) % 256)
  (accumulator >>> st.offset) &&& st.mask

/-- The unconditional table insertion at the end of the dictionary-code
branch (`myv_append(&lzw_table, 1, &myv_null)` followed by `myv_init` /
`myv_copy` of `s` into the fresh slot) together with the width check
`if (lzw_table.elements == 1 << csize) ...`. -/
def insertAndCheck (st : LZWState) : LZWState :=
  let table : List (List Nat) := st.lzw_table ++ [st.s]
  let st := { st with lzw_table := table }
  if table.length = 1 <<< st.csize then
    if st.csize < MAX_CSIZE then
      { st with csize := st.csize + 1, mask := (1 <<< (st.csize + 1)) - 1 }
    else
      { st with flag := Tstatus.DEFERRED }
  else st

/-- One iteration of the decoder's `while (ind <= len)` loop body: read a
code, advance the bit position, then dispatch on `flag` exactly as the C
if/else chain does (written as a `match` on the enum; the C chain
`if (flag != NORMAL && flag != DEFERRED) { ... MUSTCLEAR ... FIRST ... }
else if (code == EOI) ... else if (code == CLEAR) ... else { ... }`
inspects the same four cases).  `Sum.inl` is "continue looping with this
state", `Sum.inr` is break (`.ok`) or error return (`.badCode`).  The
`oldcode := code` in every continuing branch mirrors the `oldcode = code`
assignment closing the C loop body, which the `break` and the error
`return`s skip (and which runs after the branch has consumed the previous
`oldcode`). -/
def lzwStep (lzw_code_size : Nat) (bytes : Nat → Nat) (st : LZWState) :
    LZWState ⊕ LZWResult :=
  let CLEAR := 1 <<< lzw_code_size
  let EOI := CLEAR + 1
  let code := readCode bytes st
  let off := st.offset + st.csize
  let st := { st with offset := off % 8, ind := st.ind + off / 8 }
  let entry : Nat → List Nat := fun c => st.lzw_table.getD c []
  match st.flag with
  | Tstatus.MUSTCLEAR =>
    if code ≠ CLEAR then Sum.inr LZWResult.badCode
    else Sum.inl { st with flag := Tstatus.FIRST, oldcode := code }
  | Tstatus.FIRST =>
    if code < CLEAR then
      Sum.inl { st with lzw_codes := st.lzw_codes ++ [code],
                        flag := Tstatus.NORMAL, oldcode := code }
    else Sum.inr LZWResult.badCode
  | Tstatus.NORMAL =>
    if code = EOI then Sum.inr (LZWResult.ok st.lzw_codes)
    else if code = CLEAR then
      Sum.inl { st with
        lzw_table := st.lzw_table.take ((1 <<< lzw_code_size) + 2),
        csize := lzw_code_size + 1,
        mask := (1 <<< (lzw_code_size + 1)) - 1,
        flag := Tstatus.FIRST,
        oldcode := code }
    else if code < st.lzw_table.length then
      Sum.inl (insertAndCheck { st with
        lzw_codes := st.lzw_codes ++ entry code,
        s := entry st.oldcode ++ [(entry code).headD 0],
        oldcode := code })
    else
      Sum.inl (insertAndCheck { st with
        lzw_codes := st.lzw_codes ++
          (entry st.oldcode ++ [(entry st.oldcode).headD 0]),
        s := entry st.oldcode ++ [(entry st.oldcode).headD 0],
        oldcode := code })
  | Tstatus.DEFERRED =>
    if code = EOI then Sum.inr (LZWResult.ok st.lzw_codes)
    else if code = CLEAR then
      Sum.inl { st with
        lzw_table := st.lzw_table.take ((1 <<< lzw_code_size) + 2),
        csize := lzw_code_size + 1,
        mask := (1 <<< (lzw_code_size + 1)) - 1,
        flag := Tstatus.FIRST,
        oldcode := code }
    else
      Sum.inl (insertAndCheck { st with
        lzw_codes := st.lzw_codes ++ entry code,
        oldcode := code })

/-- The state at function entry: `csize = lzw_code_size + 1`, mask to match,
`flag = MUSTCLEAR`, the table holding the singleton entries `0 .. EOI`
(the C init loop runs `for (i = 0; i <= EOI; i++)` over the
`(1 << lzw_code_size) + 2` slots), empty output and scratch, bit position 0.
`oldcode` is uninitialised in C and never read before being assigned; the
model starts it at 0. -/
def initState (lzw_code_size : Nat) : LZWState :=
  { csize := lzw_code_size + 1,
    mask := (1 <<< (lzw_code_size + 1)) - 1,
    flag := Tstatus.MUSTCLEAR,
    lzw_table := (List.range ((1 <<< lzw_code_size) + 2)).map (fun i => [i]),
    lzw_codes := [],
    s := [],
    oldcode := 0,
    offset := 0,
    ind := 0 }

/-- The decoder loop `while (ind <= len) { ... }`, fuelled.  The guard is
checked before consuming fuel, so `fuelOut` can only arise if the body would
run with no fuel left; `LZWAlgorythm` supplies enough fuel for that never to
happen (proved below). -/
def lzwLoop (lzw_code_size len : Nat) (bytes : Nat → Nat) :
    Nat → LZWState → LZWResult
  | 0, st =>
    if len < st.ind then LZWResult.ok st.lzw_codes
    else LZWResult.fuelOut
  | fuel + 1, st =>
    if len < st.ind then LZWResult.ok st.lzw_codes
    else
      match lzwStep lzw_code_size bytes st with
      | Sum.inl st' => lzwLoop lzw_code_size len bytes fuel st'
      | Sum.inr r => r

/-- The decoder `LZWAlgorythm(lzw_code_size, len, bytes)`. -/
def LZWAlgorythm (lzw_code_size len : Nat) (bytes : Nat → Nat) : LZWResult :=
  lzwLoop lzw_code_size len bytes (8 * (len + 1) + 1) (initState lzw_code_size)

/-- A concrete byte buffer as a memory function: byte `i` of the list, 0
past the end. -/
def bytesOf (l : List Nat) : Nat → Nat := fun i => l.getD i 0

/-- The loop-state trajectory: run at most `k` iterations of the loop and
return the state still in the loop, or the result if the loop finished
within `k` iterations (once the guard fails the state is frozen). -/
def lzwSteps (lzw_code_size len : Nat) (bytes : Nat → Nat) :
    Nat → LZWState → LZWState ⊕ LZWResult
  | 0, st => Sum.inl st
  | k + 1, st =>
    if len < st.ind then Sum.inl st
    else
      match lzwStep lzw_code_size bytes st with
      | Sum.inl st' => lzwSteps lzw_code_size len bytes k st'
      | Sum.inr r => Sum.inr r

/-- The table size visible in a trajectory point (0 if the loop has already
returned). -/
def stateTableLen : LZWState ⊕ LZWResult → Nat
  | Sum.inl st => st.lzw_table.length
  | Sum.inr _ => 0

/-- Whether a result is the out-of-fuel marker. -/
def isFuelOut : LZWResult → Bool
  | LZWResult.fuelOut => true
  | _ => false

/-!
The `myvector` dynamic array (myvector.h / myvector.c).  `ptr` is `none`
for a NULL pointer and `some data` for an allocated block, `data` listing
the `alloc_elements` stored elements (elements, not bytes; `element_size`
is carried but plays no role beyond the C's byte arithmetic).  Allocation
calls (`calloc` / `realloc`) succeed or fail according to an explicit
boolean oracle argument, since the C behaviour depends on the allocator.
`calloc` zero-fills and `realloc`'s fresh region is unspecified; the model
uses 0 for both.
-/

/-- `MIN_ALLOC` from myvector.h. -/
def MIN_ALLOC : Nat := 10

/-- `struct myvector`. -/
structure myvector where
  ptr : Option (List Nat)
  element_size : Nat
  elements : Nat
  alloc_elements : Nat
deriving DecidableEq, Repr

/-- `myv_init(v, el_sz, el, fixed)` with allocation oracle `callocOk`:
the C overwrites every field of `*v`, so no prior vector is consumed. -/
def myv_init (el_sz el : Nat) (fixed : Bool) (callocOk : Bool) : myvector :=
  let alloc_el := if fixed then el else if el ≤ MIN_ALLOC then MIN_ALLOC else el
  if callocOk then
    { ptr := some (List.replicate alloc_el 0), element_size := el_sz,
      elements := el, alloc_elements := alloc_el }
  else
    { ptr := none, element_size := 0, elements := 0, alloc_elements := 0 }

/-- `myv_clear`. -/
def myv_clear (v : myvector) : myvector := { v with elements := 0 }

/-- `myv_realloc(v, alloc_el)` with oracle `reallocOk`.  On success the
block is resized (prefix preserved, any fresh tail unspecified, modelled 0)
and `elements` is clamped; on failure `alloc_elements` and `elements` are
zeroed and the pointer lost.  A NULL vector is untouched. -/
def myv_realloc (v : myvector) (alloc_el : Nat) (reallocOk : Bool) : myvector :=
  match v.ptr with
  | none => v
  | some data =>
    if reallocOk then
      { v with
        ptr := some (data.take alloc_el ++
          List.replicate (alloc_el - data.length) 0),
        alloc_elements := alloc_el,
        elements := if alloc_el < v.elements then alloc_el else v.elements }
    else { v with ptr := none, alloc_elements := 0, elements := 0 }

/-- `myv_append(v, new_el, pt)` with oracle `reallocOk` for the growth
reallocation.  Mirrors the C: grow by `max(new_el, elements)` only when the
new elements do not fit, then copy `new_el` elements from `pt` at position
`elements` (a short `pt` is 0-padded where the C would read out of
bounds). -/
def myv_append (v : myvector) (new_el : Nat) (pt : List Nat)
    (reallocOk : Bool) : myvector :=
  match v.ptr with
  | none => v
  | some data =>
    let alloc_el := if v.alloc_elements < v.elements + new_el then
      (if new_el < v.elements then v.elements else new_el) else 0
    let grown : Option (List Nat) :=
      if v.alloc_elements < v.elements + new_el then
        (if reallocOk then some (data ++ List.replicate alloc_el 0) else none)
      else some data
    match grown with
    | none => { v with ptr := none, alloc_elements := 0, elements := 0 }
    | some d =>
      { v with
        ptr := some (d.take v.elements ++
          (pt ++ List.replicate new_el 0).take new_el ++
          d.drop (v.elements + new_el)),
        alloc_elements := v.alloc_elements + alloc_el,
        elements := v.elements + new_el }

/-- `myv_copy(v_to, v_from)`: clear the target then append the source's
live elements (the C null-checks the struct pointers, which value passing
makes moot). -/
def myv_copy (v_to v_from : myvector) (reallocOk : Bool) : myvector :=
  let v := { v_to with elements := 0 }
  if v_from.elements ≠ 0 then
    myv_append v v_from.elements (v_from.ptr.getD []) reallocOk
  else v

/-- The size/capacity invariant of a `myvector`. -/
def myv_inv (v : myvector) : Prop := v.elements ≤ v.alloc_elements

/-!
Data for the concrete runs the claims need.
-/

/-- Input for the deferred-mode run: byte 0 is 4, everything after is 0.
At `lzw_code_size = 2` this packs the code stream `[4, 0, 0, 0, ...]`
(ClearCode, then the literal 0 forever) at every code width the decoder
reaches, since all bits past the first byte are 0. -/
def c1bytes : Nat → Nat := fun i => if i = 0 then 4 else 0

/-- The code table shape from iteration 3 of the `c1bytes` run onward:
the six initial singleton entries plus the first inserted entry `[0, 0]`
(every later insertion in this run also appends `[0, 0]`). -/
def c1base : List (List Nat) := (List.range 6).map (fun i => [i]) ++ [[0, 0]]

/-- The loop state after the first three iterations of the `c1bytes` run
(ClearCode, first literal 0, one dictionary code 0). -/
def c1st3 : LZWState :=
  { csize := 3, mask := 7, flag := Tstatus.NORMAL,
    lzw_table := c1base, lzw_codes := [0, 0], s := [0, 0],
    oldcode := 0, offset := 1, ind := 1 }

/-- Invariant of the all-zero-codes run after `m` further iterations past
`c1st3`: the table is `c1base` plus `m` copies of `[0, 0]`, the scratch
and prior code are pinned, the consumed bits are bounded, and the
width/flag are related to the table size exactly as the escalation and
deferred rules dictate. -/
def zeroRunInv (m : Nat) (st : LZWState) : Prop :=
  st.lzw_table = c1base ++ List.replicate m [0, 0] ∧
  st.s = [0, 0] ∧
  st.oldcode = 0 ∧
  1 ≤ st.ind ∧
  8 * st.ind + st.offset ≤ 9 + 12 * m ∧
  ((st.flag = Tstatus.NORMAL ∧ 2 ^ (st.csize - 1) ≤ 7 + m ∧
      7 + m < 2 ^ st.csize ∧ 3 ≤ st.csize ∧ st.csize ≤ 12) ∨
   (st.flag = Tstatus.DEFERRED ∧ st.csize = 12 ∧ 4096 ≤ 7 + m))

/-- Invariant for the output-range claim: every value stored in a table
entry whose index is neither ClearCode nor EndCode, every emitted value,
and every value in the scratch sequence is a literal (`< ClearCode`); the
table keeps at least its initial `ClearCode + 2` entries; and while the
decoder is past the first literal, `oldcode` is never one of the two
reserved codes. -/
def outputInv (lzw_code_size : Nat) (st : LZWState) : Prop :=
  (∀ i, i ≠ 1 <<< lzw_code_size → i ≠ (1 <<< lzw_code_size) + 1 →
    ∀ v ∈ st.lzw_table.getD i [], v < 1 <<< lzw_code_size) ∧
  (∀ v ∈ st.lzw_codes, v < 1 <<< lzw_code_size) ∧
  ((1 <<< lzw_code_size) + 2 ≤ st.lzw_table.length) ∧
  ((st.flag = Tstatus.NORMAL ∨ st.flag = Tstatus.DEFERRED) →
    st.oldcode ≠ 1 <<< lzw_code_size ∧
    st.oldcode ≠ (1 <<< lzw_code_size) + 1) ∧
  (∀ v ∈ st.s, v < 1 <<< lzw_code_size)

/-- A mid-decode state used to instantiate the step-level theorems: the
initial table for `lzw_code_size = 2` with one extra entry, width still 3,
in the Running state. -/
def wNormalSt : LZWState :=
  { csize := 3, mask := 7, flag := Tstatus.NORMAL,
    lzw_table := (List.range 6).map (fun i => [i]) ++ [[0, 1]],
    lzw_codes := [0, 1], s := [0, 1], oldcode := 1,
    offset := 0, ind := 0 }

/-- A Deferred-state used to instantiate the persistence part of the
escalation theorem (the hypotheses constrain only the width check, so a
small table keeps the witness evaluation cheap). -/
def wDeferredSt : LZWState :=
  { csize := 12, mask := 4095, flag := Tstatus.DEFERRED,
    lzw_table := List.replicate 20 [0],
    lzw_codes := [0], s := [0, 0], oldcode := 0,
    offset := 0, ind := 0 }

/-- A concrete allocated vector used to instantiate the `myvector`
theorem. -/
def wVec : myvector :=
  { ptr := some [1, 2, 3, 0, 0], element_size := 2,
    elements := 3, alloc_elements := 5 }

/-!
Theorems.  First some bookkeeping lemmas about the shapes of the step
function's results, shared by the claim proofs below.
-/

lemma insertAndCheck_lzw_table (st : LZWState) :
    (insertAndCheck st).lzw_table = st.lzw_table ++ [st.s] := by
  simp only [insertAndCheck]
  split
  · split <;> rfl
  · rfl

lemma insertAndCheck_lzw_codes (st : LZWState) :
    (insertAndCheck st).lzw_codes = st.lzw_codes := by
  simp only [insertAndCheck]
  split
  · split <;> rfl
  · rfl

lemma insertAndCheck_s (st : LZWState) : (insertAndCheck st).s = st.s := by
  simp only [insertAndCheck]
  split
  · split <;> rfl
  · rfl

lemma insertAndCheck_oldcode (st : LZWState) :
    (insertAndCheck st).oldcode = st.oldcode := by
  simp only [insertAndCheck]
  split
  · split <;> rfl
  · rfl

lemma insertAndCheck_offset (st : LZWState) :
    (insertAndCheck st).offset = st.offset := by
  simp only [insertAndCheck]
  split
  · split <;> rfl
  · rfl

lemma insertAndCheck_ind (st : LZWState) : (insertAndCheck st).ind = st.ind := by
  simp only [insertAndCheck]
  split
  · split <;> rfl
  · rfl

lemma insertAndCheck_csize_or (st : LZWState) :
    (insertAndCheck st).csize = st.csize ∨
      (insertAndCheck st).csize = st.csize + 1 := by
  simp only [insertAndCheck]
  split
  · split
    · right; rfl
    · left; rfl
  · left; rfl

lemma insertAndCheck_flag_or (st : LZWState) :
    (insertAndCheck st).flag = st.flag ∨
      (insertAndCheck st).flag = Tstatus.DEFERRED := by
  simp only [insertAndCheck]
  split
  · split
    · left; rfl
    · right; rfl
  · left; rfl

lemma insertAndCheck_of_ne (st : LZWState)
    (h : st.lzw_table.length + 1 ≠ 1 <<< st.csize) :
    (insertAndCheck st).csize = st.csize ∧ (insertAndCheck st).mask = st.mask ∧
      (insertAndCheck st).flag = st.flag := by
  simp only [insertAndCheck]
  rw [if_neg (by simpa using h)]
  exact ⟨rfl, rfl, rfl⟩

lemma insertAndCheck_of_eq_lt (st : LZWState)
    (h : st.lzw_table.length + 1 = 1 <<< st.csize) (hlt : st.csize < MAX_CSIZE) :
    (insertAndCheck st).csize = st.csize + 1 ∧
      (insertAndCheck st).mask = (1 <<< (st.csize + 1)) - 1 ∧
      (insertAndCheck st).flag = st.flag := by
  simp only [insertAndCheck]
  rw [if_pos (by simpa using h), if_pos hlt]
  exact ⟨rfl, rfl, rfl⟩

lemma insertAndCheck_of_eq_ge (st : LZWState)
    (h : st.lzw_table.length + 1 = 1 <<< st.csize)
    (hge : ¬ st.csize < MAX_CSIZE) :
    (insertAndCheck st).csize = st.csize ∧ (insertAndCheck st).mask = st.mask ∧
      (insertAndCheck st).flag = Tstatus.DEFERRED := by
  simp only [insertAndCheck]
  rw [if_pos (by simpa using h), if_neg hge]
  exact ⟨rfl, rfl, rfl⟩

lemma lzwStep_inl_advance (cs : Nat) (bytes : Nat → Nat) (st st' : LZWState)
    (h : lzwStep cs bytes st = Sum.inl st') :
    st'.offset = (st.offset + st.csize) % 8 ∧
    st'.ind = st.ind + (st.offset + st.csize) / 8 ∧
    (st'.csize = st.csize ∨ st'.csize = st.csize + 1 ∨ st'.csize = cs + 1) := by
  simp only [lzwStep] at h
  cases hf : st.flag <;> simp only [hf] at h <;>
    (repeat' split at h) <;>
    first
    | (injection h with h
       subst h
       refine ⟨?_, ?_, ?_⟩
       · rw [insertAndCheck_offset]
       · rw [insertAndCheck_ind]
       · rcases insertAndCheck_csize_or _ with hc | hc <;> rw [hc] <;> simp)
    | (injection h with h
       subst h
       simp)
    | (injection h)

lemma lzwStep_inr (cs : Nat) (bytes : Nat → Nat) (st : LZWState)
    (r : LZWResult) (h : lzwStep cs bytes st = Sum.inr r) :
    r = LZWResult.badCode ∨ r = LZWResult.ok st.lzw_codes := by
  simp only [lzwStep] at h
  cases hf : st.flag <;> simp only [hf] at h <;>
    (repeat' split at h) <;>
    first
    | (injection h with h; subst h; simp)
    | (injection h)

lemma lzwLoop_not_fuelOut (cs len : Nat) (bytes : Nat → Nat) :
    ∀ fuel st, st.offset < 8 → 1 ≤ st.csize →
      8 * (len + 1) ≤ 8 * st.ind + st.offset + fuel →
      isFuelOut (lzwLoop cs len bytes fuel st) = false := by
  intro fuel
  induction fuel with
  | zero =>
    intro st hoff _ hbits
    have hguard : len < st.ind := by omega
    simp [lzwLoop, hguard, isFuelOut]
  | succ fuel ih =>
    intro st hoff hcs hbits
    by_cases hguard : len < st.ind
    · simp [lzwLoop, hguard, isFuelOut]
    · simp only [lzwLoop, hguard, if_false]
      cases hstep : lzwStep cs bytes st with
      | inl st' =>
        obtain ⟨ho, hi, hc⟩ := lzwStep_inl_advance cs bytes st st' hstep
        have hdm : 8 * ((st.offset + st.csize) / 8) +
            (st.offset + st.csize) % 8 = st.offset + st.csize := by
          omega
        refine ih st' ?_ ?_ ?_
        · rw [ho]; omega
        · rcases hc with h | h | h <;> omega
        · rw [ho, hi]; omega
      | inr r =>
        rcases lzwStep_inr cs bytes st r hstep with h | h <;>
          simp [h, isFuelOut]

/-- C9: every decode invocation terminates.  `LZWAlgorythm` runs the loop
with fuel `8 * (len + 1) + 1`; since every iteration advances the bit
position `8 * ind + offset` by the current code width (at least 1) and the
loop guard `ind <= len` fails once the bit position passes `8 * (len + 1)`,
that fuel is never exhausted: the decode always ends in a result, for every
code size, buffer and length. -/
theorem lzw_decode_terminates (lzw_code_size len : Nat) (bytes : Nat → Nat) :
    isFuelOut (LZWAlgorythm lzw_code_size len bytes) = false := by
  refine lzwLoop_not_fuelOut lzw_code_size len bytes
    (8 * (len + 1) + 1) (initState lzw_code_size) ?_ ?_ ?_
  · show (0 : Nat) < 8; omega
  · show 1 ≤ lzw_code_size + 1; omega
  · show 8 * (len + 1) ≤ 8 * 0 + 0 + (8 * (len + 1) + 1); omega

lemma lzwStep_normal_dict_spec (cs : Nat) (bytes : Nat → Nat)
    (st : LZWState)
    (hflag : st.flag = Tstatus.NORMAL)
    (h1 : readCode bytes st ≠ 1 <<< cs)
    (h2 : readCode bytes st ≠ (1 <<< cs) + 1) :
    ∃ st', lzwStep cs bytes st = Sum.inl st' ∧
      st'.lzw_table.length = st.lzw_table.length + 1 ∧
      (st'.lzw_table.length = 1 <<< st.csize →
        (st.csize < MAX_CSIZE →
          st'.csize = st.csize + 1 ∧ st'.mask = (1 <<< (st.csize + 1)) - 1 ∧
          st'.flag = Tstatus.NORMAL) ∧
        (¬ st.csize < MAX_CSIZE →
          st'.flag = Tstatus.DEFERRED ∧ st'.csize = st.csize ∧
          st'.mask = st.mask)) ∧
      (st'.lzw_table.length ≠ 1 <<< st.csize →
        st'.csize = st.csize ∧ st'.mask = st.mask ∧
        st'.flag = Tstatus.NORMAL) := by
  obtain ⟨A, hA1, hA2, hA3, hA4, hstep⟩ :
      ∃ A : LZWState, A.lzw_table = st.lzw_table ∧ A.csize = st.csize ∧
        A.mask = st.mask ∧ A.flag = st.flag ∧
        lzwStep cs bytes st = Sum.inl (insertAndCheck A) := by
    by_cases hlt : readCode bytes st < st.lzw_table.length
    · refine ⟨{ st with
          lzw_codes := st.lzw_codes ++ st.lzw_table.getD (readCode bytes st) [],
          s := st.lzw_table.getD st.oldcode [] ++
            [(st.lzw_table.getD (readCode bytes st) []).headD 0],
          oldcode := readCode bytes st,
          offset := (st.offset + st.csize) % 8,
          ind := st.ind + (st.offset + st.csize) / 8 }, rfl, rfl, rfl, rfl, ?_⟩
      simp only [lzwStep, hflag]
      simp [h1, h2, hlt]
    · refine ⟨{ st with
          lzw_codes := st.lzw_codes ++ (st.lzw_table.getD st.oldcode [] ++
            [(st.lzw_table.getD st.oldcode []).headD 0]),
          s := st.lzw_table.getD st.oldcode [] ++
            [(st.lzw_table.getD st.oldcode []).headD 0],
          oldcode := readCode bytes st,
          offset := (st.offset + st.csize) % 8,
          ind := st.ind + (st.offset + st.csize) / 8 }, rfl, rfl, rfl, rfl, ?_⟩
      simp only [lzwStep, hflag]
      simp [h1, h2, hlt]
  refine ⟨insertAndCheck A, hstep, ?_, ?_, ?_⟩
  · rw [insertAndCheck_lzw_table]
    simp [hA1]
  · intro heq
    rw [insertAndCheck_lzw_table] at heq
    simp only [List.length_append, List.length_cons, List.length_nil] at heq
    have hlen : A.lzw_table.length + 1 = 1 <<< A.csize := by
      rw [hA2]
      exact heq
    constructor
    · intro hsz
      obtain ⟨hc, hm, hf⟩ := insertAndCheck_of_eq_lt A hlen
        (by rw [hA2]; exact hsz)
      exact ⟨by rw [hc, hA2], by rw [hm, hA2], by rw [hf, hA4, hflag]⟩
    · intro hsz
      obtain ⟨hc, hm, hf⟩ := insertAndCheck_of_eq_ge A hlen
        (by rw [hA2]; exact hsz)
      exact ⟨hf, by rw [hc, hA2], by rw [hm, hA3]⟩
  · intro hne
    rw [insertAndCheck_lzw_table] at hne
    simp only [List.length_append, List.length_cons, List.length_nil] at hne
    have hlen : A.lzw_table.length + 1 ≠ 1 <<< A.csize := by
      rw [hA2]
      exact hne
    obtain ⟨hc, hm, hf⟩ := insertAndCheck_of_ne A hlen
    exact ⟨by rw [hc, hA2], by rw [hm, hA3], by rw [hf, hA4, hflag]⟩

lemma lzwStep_deferred_dict_spec (cs : Nat) (bytes : Nat → Nat)
    (st : LZWState)
    (hflag : st.flag = Tstatus.DEFERRED)
    (h1 : readCode bytes st ≠ 1 <<< cs)
    (h2 : readCode bytes st ≠ (1 <<< cs) + 1)
    (hfull : st.lzw_table.length + 1 ≠ 1 <<< st.csize) :
    ∃ st', lzwStep cs bytes st = Sum.inl st' ∧
      st'.flag = Tstatus.DEFERRED ∧ st'.csize = st.csize ∧
      st'.mask = st.mask ∧
      st'.lzw_table.length = st.lzw_table.length + 1 := by
  have hstep : lzwStep cs bytes st = Sum.inl (insertAndCheck { st with
      lzw_codes := st.lzw_codes ++ st.lzw_table.getD (readCode bytes st) [],
      oldcode := readCode bytes st,
      offset := (st.offset + st.csize) % 8,
      ind := st.ind + (st.offset + st.csize) / 8 }) := by
    simp only [lzwStep, hflag]
    simp [h1, h2]
  obtain ⟨A, hA1, hA2, hA3, hA4, hstep⟩ :
      ∃ A : LZWState, A.lzw_table = st.lzw_table ∧ A.csize = st.csize ∧
        A.mask = st.mask ∧ A.flag = st.flag ∧
        lzwStep cs bytes st = Sum.inl (insertAndCheck A) :=
    ⟨{ st with
        lzw_codes := st.lzw_codes ++ st.lzw_table.getD (readCode bytes st) [],
        oldcode := readCode bytes st,
        offset := (st.offset + st.csize) % 8,
        ind := st.ind + (st.offset + st.csize) / 8 },
      rfl, rfl, rfl, rfl, hstep⟩
  obtain ⟨hc, hm, hf⟩ := insertAndCheck_of_ne A
    (by rw [hA1, hA2]; exact hfull)
  refine ⟨insertAndCheck A, hstep, by rw [hf, hA4, hflag],
    by rw [hc, hA2], by rw [hm, hA3], ?_⟩
  rw [insertAndCheck_lzw_table]
  simp [hA1]

/-- C6: two-part statement.  First, in the Running state, reading a
dictionary code (neither ClearCode nor EndCode) always inserts one table
entry; if the table size has just reached `2 ^ CodeWidth` then, when
`CodeWidth < 12`, the width and the reader mask grow by one bit (so every
subsequently read code uses the new width) and the decoder stays Running,
and otherwise the decoder enters the Deferred state with the width and
mask pinned at their current values; if the size has not reached
`2 ^ CodeWidth`, width, mask and state are unchanged.  Second, the
Deferred state persists until the next ClearCode: a further dictionary
code (with the table already past the `2 ^ CodeWidth` boundary, as holds
in every reachable Deferred state) leaves the state Deferred and the
width and mask untouched. -/
theorem lzw_width_escalation :
    (∀ (cs : Nat) (bytes : Nat → Nat) (st : LZWState),
      st.flag = Tstatus.NORMAL →
      readCode bytes st ≠ 1 <<< cs →
      readCode bytes st ≠ (1 <<< cs) + 1 →
      ∃ st', lzwStep cs bytes st = Sum.inl st' ∧
        st'.lzw_table.length = st.lzw_table.length + 1 ∧
        (st'.lzw_table.length = 1 <<< st.csize →
          (st.csize < MAX_CSIZE →
            st'.csize = st.csize + 1 ∧
            st'.mask = (1 <<< (st.csize + 1)) - 1 ∧
            st'.flag = Tstatus.NORMAL) ∧
          (¬ st.csize < MAX_CSIZE →
            st'.flag = Tstatus.DEFERRED ∧ st'.csize = st.csize ∧
            st'.mask = st.mask)) ∧
        (st'.lzw_table.length ≠ 1 <<< st.csize →
          st'.csize = st.csize ∧ st'.mask = st.mask ∧
          st'.flag = Tstatus.NORMAL)) ∧
    (∀ (cs : Nat) (bytes : Nat → Nat) (st : LZWState),
      st.flag = Tstatus.DEFERRED →
      readCode bytes st ≠ 1 <<< cs →
      readCode bytes st ≠ (1 <<< cs) + 1 →
      st.lzw_table.length + 1 ≠ 1 <<< st.csize →
      ∃ st', lzwStep cs bytes st = Sum.inl st' ∧
        st'.flag = Tstatus.DEFERRED ∧ st'.csize = st.csize ∧
        st'.mask = st.mask ∧
        st'.lzw_table.length = st.lzw_table.length + 1) :=
  ⟨fun cs bytes st hflag h1 h2 =>
      lzwStep_normal_dict_spec cs bytes st hflag h1 h2,
    fun cs bytes st hflag h1 h2 hfull =>
      lzwStep_deferred_dict_spec cs bytes st hflag h1 h2 hfull⟩

/-- Witness for C6: the Running part at a seven-entry table (the insertion
brings it to 8 = 2 ^ 3, so the width escalates from 3 to 4), and the
Deferred part at a 4096-entry table pinned at width 12. -/
theorem lzw_width_escalation_witness :
    (∃ st', lzwStep 2 (bytesOf [0]) wNormalSt = Sum.inl st' ∧
      st'.lzw_table.length = wNormalSt.lzw_table.length + 1 ∧
      (st'.lzw_table.length = 1 <<< wNormalSt.csize →
        (wNormalSt.csize < MAX_CSIZE →
          st'.csize = wNormalSt.csize + 1 ∧
          st'.mask = (1 <<< (wNormalSt.csize + 1)) - 1 ∧
          st'.flag = Tstatus.NORMAL) ∧
        (¬ wNormalSt.csize < MAX_CSIZE →
          st'.flag = Tstatus.DEFERRED ∧ st'.csize = wNormalSt.csize ∧
          st'.mask = wNormalSt.mask)) ∧
      (st'.lzw_table.length ≠ 1 <<< wNormalSt.csize →
        st'.csize = wNormalSt.csize ∧ st'.mask = wNormalSt.mask ∧
        st'.flag = Tstatus.NORMAL)) ∧
    (∃ st', lzwStep 2 (bytesOf [0]) wDeferredSt = Sum.inl st' ∧
      st'.flag = Tstatus.DEFERRED ∧ st'.csize = wDeferredSt.csize ∧
      st'.mask = wDeferredSt.mask ∧
      st'.lzw_table.length = wDeferredSt.lzw_table.length + 1) :=
  ⟨lzw_width_escalation.1 2 (bytesOf [0]) wNormalSt (by decide) (by decide)
      (by decide),
    lzw_width_escalation.2 2 (bytesOf [0]) wDeferredSt (by decide) (by decide)
      (by decide) (by decide)⟩

/-- C7: whenever a ClearCode is read in the Running or Deferred state,
whatever size the dictionary has grown to, the table is truncated back to
its initial `ClearCode + 2` singleton layout (the hypothesis `htable`
records that the initial prefix is still in place, which every reachable
state satisfies since insertions only append), the code width and mask are
reset to `CodeSize + 1`, the decoder returns to the expecting-first-code
state with no output emitted, and the next code is then handled exactly as
the first post-clear code: a literal (`< ClearCode`) is emitted and the
decoder runs on with the literal as the new prior code (the stale
`oldcode` from before the clear is overwritten before any use), while any
other code fails with the decoder's bad-code error. -/
theorem lzw_clear_resets (cs : Nat) (bytes bytes2 : Nat → Nat)
    (st : LZWState)
    (hflag : st.flag = Tstatus.NORMAL ∨ st.flag = Tstatus.DEFERRED)
    (hcode : readCode bytes st = 1 <<< cs)
    (htable : st.lzw_table.take ((1 <<< cs) + 2) =
      (List.range ((1 <<< cs) + 2)).map (fun i => [i])) :
    ∃ st', lzwStep cs bytes st = Sum.inl st' ∧
      st'.lzw_table = (List.range ((1 <<< cs) + 2)).map (fun i => [i]) ∧
      st'.lzw_table.length = (1 <<< cs) + 2 ∧
      st'.csize = cs + 1 ∧
      st'.mask = (1 <<< (cs + 1)) - 1 ∧
      st'.flag = Tstatus.FIRST ∧
      st'.lzw_codes = st.lzw_codes ∧
      (readCode bytes2 st' < 1 <<< cs →
        lzwStep cs bytes2 st' = Sum.inl { st' with
          lzw_codes := st'.lzw_codes ++ [readCode bytes2 st'],
          flag := Tstatus.NORMAL,
          oldcode := readCode bytes2 st',
          offset := (st'.offset + st'.csize) % 8,
          ind := st'.ind + (st'.offset + st'.csize) / 8 }) ∧
      (¬ readCode bytes2 st' < 1 <<< cs →
        lzwStep cs bytes2 st' = Sum.inr LZWResult.badCode) := by
  have hEOI : readCode bytes st ≠ (1 <<< cs) + 1 := by
    rw [hcode]
    omega
  obtain ⟨st1, h1eq, hstep⟩ :
      ∃ st1 : LZWState, st1 = { st with
        lzw_table := st.lzw_table.take ((1 <<< cs) + 2),
        csize := cs + 1,
        mask := (1 <<< (cs + 1)) - 1,
        flag := Tstatus.FIRST,
        oldcode := readCode bytes st,
        offset := (st.offset + st.csize) % 8,
        ind := st.ind + (st.offset + st.csize) / 8 } ∧
        lzwStep cs bytes st = Sum.inl st1 := by
    rcases hflag with hf | hf <;>
      refine ⟨_, rfl, ?_⟩ <;>
      · simp only [lzwStep, hf]
        simp [hcode, hEOI]
  subst h1eq
  refine ⟨_, hstep, htable, ?_, rfl, rfl, rfl, rfl, ?_, ?_⟩
  · show (st.lzw_table.take ((1 <<< cs) + 2)).length = (1 <<< cs) + 2
    rw [htable]
    simp
  · intro hlit
    simp only [lzwStep]
    simp [hlit]
  · intro hlit
    simp only [lzwStep]
    simp [hlit]

/-- Witness for C7 at a concrete Running-state with a grown table: code
size 2, a ClearCode read next, and a literal 0 as the post-clear code. -/
theorem lzw_clear_resets_witness :
    ∃ st', lzwStep 2 (bytesOf [4]) wNormalSt = Sum.inl st' ∧
      st'.lzw_table = (List.range ((1 <<< 2) + 2)).map (fun i => [i]) ∧
      st'.lzw_table.length = (1 <<< 2) + 2 ∧
      st'.csize = 2 + 1 ∧
      st'.mask = (1 <<< (2 + 1)) - 1 ∧
      st'.flag = Tstatus.FIRST ∧
      st'.lzw_codes = wNormalSt.lzw_codes ∧
      (readCode (bytesOf [1]) st' < 1 <<< 2 →
        lzwStep 2 (bytesOf [1]) st' = Sum.inl { st' with
          lzw_codes := st'.lzw_codes ++ [readCode (bytesOf [1]) st'],
          flag := Tstatus.NORMAL,
          oldcode := readCode (bytesOf [1]) st',
          offset := (st'.offset + st'.csize) % 8,
          ind := st'.ind + (st'.offset + st'.csize) / 8 }) ∧
      (¬ readCode (bytesOf [1]) st' < 1 <<< 2 →
        lzwStep 2 (bytesOf [1]) st' = Sum.inr LZWResult.badCode) :=
  lzw_clear_resets 2 (bytesOf [4]) (bytesOf [1]) wNormalSt
    (Or.inl (by decide)) (by decide) (by decide)

lemma forall_lt_append {C : Nat} {l1 l2 : List Nat}
    (h1 : ∀ v ∈ l1, v < C) (h2 : ∀ v ∈ l2, v < C) :
    ∀ v ∈ l1 ++ l2, v < C := by
  intro v hv
  rcases List.mem_append.mp hv with h | h
  · exact h1 v h
  · exact h2 v h

lemma headD_lt {C : Nat} {l : List Nat} (h0 : 0 < C)
    (h : ∀ v ∈ l, v < C) : l.headD 0 < C := by
  cases l with
  | nil => simpa using h0
  | cons a t => exact h a (by simp)

lemma mem_getD_take {l : List (List Nat)} {k i : Nat} :
    ∀ v ∈ (l.take k).getD i [], v ∈ l.getD i [] := by
  intro v hv
  by_cases hlt : i < (l.take k).length
  · have heq : (l.take k ++ l.drop k).getD i ([] : List Nat) =
        (l.take k).getD i [] := List.getD_append _ _ _ _ hlt
    rw [List.take_append_drop] at heq
    rw [heq]
    exact hv
  · rw [List.getD_eq_default _ _ (Nat.le_of_not_lt hlt)] at hv
    simp at hv

lemma shiftLeft_one_pos (cs : Nat) : 0 < 1 <<< cs := by
  rw [Nat.shiftLeft_eq, one_mul]
  exact Nat.two_pow_pos cs

lemma outputInv_insertAndCheck (cs : Nat) (A : LZWState)
    (h1 : ∀ i, i ≠ 1 <<< cs → i ≠ (1 <<< cs) + 1 →
      ∀ v ∈ A.lzw_table.getD i [], v < 1 <<< cs)
    (h2 : ∀ v ∈ A.lzw_codes, v < 1 <<< cs)
    (h3 : (1 <<< cs) + 2 ≤ A.lzw_table.length)
    (h4 : A.oldcode ≠ 1 <<< cs ∧ A.oldcode ≠ (1 <<< cs) + 1)
    (h5 : ∀ v ∈ A.s, v < 1 <<< cs) :
    outputInv cs (insertAndCheck A) := by
  refine ⟨?_, ?_, ?_, ?_, ?_⟩
  · intro i hi1 hi2 v hv
    rw [insertAndCheck_lzw_table] at hv
    rcases Nat.lt_trichotomy i A.lzw_table.length with hlt | heq | hgt
    · rw [List.getD_append _ _ _ _ hlt] at hv
      exact h1 i hi1 hi2 v hv
    · rw [List.getD_append_right _ _ _ _ (Nat.le_of_eq heq.symm)] at hv
      rw [heq, Nat.sub_self] at hv
      exact h5 v (by simpa using hv)
    · rw [List.getD_append_right _ _ _ _ (by omega)] at hv
      rw [List.getD_eq_default] at hv
      · simp at hv
      · simp
        omega
  · rw [insertAndCheck_lzw_codes]
    exact h2
  · rw [insertAndCheck_lzw_table]
    rw [List.length_append]
    simp
    omega
  · intro _
    rw [insertAndCheck_oldcode]
    exact h4
  · rw [insertAndCheck_s]
    exact h5

lemma outputInv_step (cs : Nat) (bytes : Nat → Nat) (st st' : LZWState)
    (hinv : outputInv cs st) (h : lzwStep cs bytes st = Sum.inl st') :
    outputInv cs st' := by
  obtain ⟨hA, hB, hlen, hD, hE⟩ := hinv
  have hC : 0 < 1 <<< cs := shiftLeft_one_pos cs
  cases hf : st.flag
  case MUSTCLEAR =>
    simp only [lzwStep, hf] at h
    split at h
    · simp at h
    · injection h with h
      subst h
      exact ⟨hA, hB, hlen, by simp, hE⟩
  case FIRST =>
    simp only [lzwStep, hf] at h
    split at h
    · rename_i hlit
      injection h with h
      subst h
      refine ⟨hA, ?_, hlen, ?_, hE⟩
      · refine forall_lt_append hB ?_
        intro v hv
        rw [List.mem_singleton] at hv
        subst hv
        exact hlit
      · intro _
        refine ⟨?_, ?_⟩
        · show readCode bytes st ≠ 1 <<< cs
          omega
        · show readCode bytes st ≠ (1 <<< cs) + 1
          omega
    · simp at h
  case NORMAL =>
    simp only [lzwStep, hf] at h
    split at h
    · simp at h
    · split at h
      · rename_i hne1 hclear
        injection h with h
        subst h
        refine ⟨?_, hB, ?_, by simp, hE⟩
        · intro i hi1 hi2 v hv
          exact hA i hi1 hi2 v (mem_getD_take v hv)
        · simp only [List.length_take]
          omega
      · rename_i hne1 hne2
        have hold := hD (Or.inl hf)
        split at h
        · rename_i hlt
          injection h with h
          subst h
          refine outputInv_insertAndCheck cs _ hA ?_ hlen ⟨hne2, hne1⟩ ?_
          · exact forall_lt_append hB (hA _ hne2 hne1)
          · refine forall_lt_append (hA _ hold.1 hold.2) ?_
            intro v hv
            rw [List.mem_singleton] at hv
            subst hv
            exact headD_lt hC (hA _ hne2 hne1)
        · rename_i hge
          injection h with h
          subst h
          refine outputInv_insertAndCheck cs _ hA ?_ hlen ⟨hne2, hne1⟩ ?_
          · refine forall_lt_append hB ?_
            refine forall_lt_append (hA _ hold.1 hold.2) ?_
            intro v hv
            rw [List.mem_singleton] at hv
            subst hv
            exact headD_lt hC (hA _ hold.1 hold.2)
          · refine forall_lt_append (hA _ hold.1 hold.2) ?_
            intro v hv
            rw [List.mem_singleton] at hv
            subst hv
            exact headD_lt hC (hA _ hold.1 hold.2)
  case DEFERRED =>
    simp only [lzwStep, hf] at h
    split at h
    · simp at h
    · split at h
      · rename_i hne1 hclear
        injection h with h
        subst h
        refine ⟨?_, hB, ?_, by simp, hE⟩
        · intro i hi1 hi2 v hv
          exact hA i hi1 hi2 v (mem_getD_take v hv)
        · simp only [List.length_take]
          omega
      · rename_i hne1 hne2
        injection h with h
        subst h
        refine outputInv_insertAndCheck cs _ hA ?_ hlen ⟨hne2, hne1⟩ hE
        exact forall_lt_append hB (hA _ hne2 hne1)

lemma outputInv_init (cs : Nat) : outputInv cs (initState cs) := by
  refine ⟨?_, by simp [initState], ?_, by simp [initState], by simp [initState]⟩
  · intro i hi1 hi2 v hv
    show v < 1 <<< cs
    by_cases hlt : i < (1 <<< cs) + 2
    · have hl : i < (((List.range ((1 <<< cs) + 2))).map
          (fun j => [j])).length := by
        simpa using hlt
      rw [show (initState cs).lzw_table =
        (List.range ((1 <<< cs) + 2)).map (fun j => [j]) from rfl] at hv
      rw [List.getD_eq_getElem _ _ hl] at hv
      rw [List.getElem_map] at hv
      rw [List.getElem_range] at hv
      rw [List.mem_singleton] at hv
      subst hv
      omega
    · rw [show (initState cs).lzw_table =
        (List.range ((1 <<< cs) + 2)).map (fun j => [j]) from rfl] at hv
      rw [List.getD_eq_default] at hv
      · simp at hv
      · simpa using Nat.le_of_not_lt hlt
  · show (1 <<< cs) + 2 ≤ (initState cs).lzw_table.length
    simp [initState]

lemma lzwLoop_ok_bound (cs len : Nat) (bytes : Nat → Nat) :
    ∀ fuel st codes, outputInv cs st →
      lzwLoop cs len bytes fuel st = LZWResult.ok codes →
      ∀ v ∈ codes, v < 1 <<< cs := by
  intro fuel
  induction fuel with
  | zero =>
    intro st codes hinv h
    simp only [lzwLoop] at h
    split at h
    · injection h with h
      subst h
      exact hinv.2.1
    · cases h
  | succ fuel ih =>
    intro st codes hinv h
    simp only [lzwLoop] at h
    split at h
    · injection h with h
      subst h
      exact hinv.2.1
    · cases hstep : lzwStep cs bytes st with
      | inl st' =>
        rw [hstep] at h
        exact ih st' codes (outputInv_step cs bytes st st' hinv hstep) h
      | inr r =>
        rw [hstep] at h
        rcases lzwStep_inr cs bytes st r hstep with hr | hr
        · rw [hr] at h
          cases h
        · rw [hr] at h
          injection h with h
          subst h
          exact hinv.2.1

/-- C8: for every decode invocation that returns an output stream
(complete or cut short by the missing truncation check), every value in
that stream is a literal index below ClearCode: the reserved codes and
dictionary codes never appear in the output, only their expansions do.
Proved from a loop invariant: all table entries away from the two reserved
slots, the output so far, and the scratch sequence contain only literals,
and `oldcode` is never a reserved code once the decoder is past the first
literal. -/
theorem lzw_output_values_literal (lzw_code_size len : Nat)
    (bytes : Nat → Nat) (codes : List Nat)
    (h : LZWAlgorythm lzw_code_size len bytes = LZWResult.ok codes) :
    ∀ v ∈ codes, v < 1 <<< lzw_code_size :=
  lzwLoop_ok_bound lzw_code_size len bytes _ _ codes
    (outputInv_init lzw_code_size) h

/-- Witness for C8 at the concrete escalated-packing run: output
`[0, 1, 2, 3]`, all below ClearCode 4. -/
theorem lzw_output_values_literal_witness :
    LZWAlgorythm 2 3 (bytesOf [68, 52, 5]) = LZWResult.ok [0, 1, 2, 3] ∧
      ∀ v ∈ [0, 1, 2, 3], v < 1 <<< 2 :=
  ⟨by decide, lzw_output_values_literal 2 3 (bytesOf [68, 52, 5])
    [0, 1, 2, 3] (by decide)⟩

/-- C2: the claim says a buffer exhausted before EndCode fails with
`TruncatedStream`.  The code has no truncation detection at all: with
`lzw_code_size = 2` and the one-byte buffer `[4]` (the packed ClearCode
followed by zero bits only, no EndCode anywhere), the loop walks off the
end of the buffer and the decoder returns the accumulated output stream
`[0, 0, 0, 0]` as a success. -/
theorem truncated_stream_returns_output :
    LZWAlgorythm 2 1 (bytesOf [4]) = LZWResult.ok [0, 0, 0, 0] := by
  decide

/-- C3: the claim says a code strictly greater than the dictionary size
fails with `UnknownCode`.  The code never checks for this: with
`lzw_code_size = 2` the buffer `[196, 11]` packs the width-3 codes
`[4, 0, 7, 5]`; when 7 is read the table has 6 entries, so 7 > 6 is not a
known entry nor the next-assignable code, yet the decoder treats it as the
next-assignable case and returns `[0, 0, 0]` successfully. -/
theorem unknown_code_not_rejected :
    LZWAlgorythm 2 2 (bytesOf [196, 11]) = LZWResult.ok [0, 0, 0] := by
  decide

/-- C4 counterexample: with `lzw_code_size = 2`, the buffer `[44]` packs
the width-3 codes `[4, 5]`, i.e. `[ClearCode, EndCode]`; the claim says
this decodes to an empty output, but the decoder rejects it (EndCode is
only recognised in the Running/Deferred states, and the post-clear state
demands a literal). -/
theorem clear_end_stream_not_ok :
    LZWAlgorythm 2 1 (bytesOf [44]) ≠ LZWResult.ok [] := by
  decide

/-- C4 amended: for every CodeSize in 2..8, decoding the two-code stream
`[ClearCode, EndCode]` bit-packed at width CodeSize+1 fails with the
decoder's bad-code error (the code path printing "Bad LZW code" and
returning 0), because after the ClearCode the decoder requires a literal
first code and EndCode is not a literal. -/
theorem clear_end_stream_rejected :
    LZWAlgorythm 2 1 (bytesOf [44]) = LZWResult.badCode ∧
    LZWAlgorythm 3 1 (bytesOf [152]) = LZWResult.badCode ∧
    LZWAlgorythm 4 2 (bytesOf [48, 2]) = LZWResult.badCode ∧
    LZWAlgorythm 5 2 (bytesOf [96, 8]) = LZWResult.badCode ∧
    LZWAlgorythm 6 2 (bytesOf [192, 32]) = LZWResult.badCode ∧
    LZWAlgorythm 7 2 (bytesOf [128, 129]) = LZWResult.badCode ∧
    LZWAlgorythm 8 3 (bytesOf [0, 3, 2]) = LZWResult.badCode := by
  refine ⟨by decide, by decide, by decide, by decide, by decide,
    by decide, by decide⟩

/-- C5 counterexample: with `lzw_code_size = 2`, packing all six codes
`[4, 0, 1, 2, 3, 5]` at width 3 gives the buffer `[68, 180, 2]`; the claim
says this decodes to `[0, 1, 2, 3]`, but after the insertion that brings
the table to 8 entries the decoder widens to 4 bits, desynchronises from
the width-3 packing, and produces `[0, 1, 2, 2, 2, 2, 0, 0, 0]`. -/
theorem width3_packing_wrong_output :
    LZWAlgorythm 2 3 (bytesOf [68, 180, 2]) =
      LZWResult.ok [0, 1, 2, 2, 2, 2, 0, 0, 0] ∧
    LZWAlgorythm 2 3 (bytesOf [68, 180, 2]) ≠ LZWResult.ok [0, 1, 2, 3] := by
  refine ⟨by decide, by decide⟩

/-- C5 amended: with `lzw_code_size = 2`, the code stream
`[4, 0, 1, 2, 3, 5]` decodes to exactly `[0, 1, 2, 3]` when it is packed
the way the decoder reads it: `[4, 0, 1, 2]` at width 3 and then `[3, 5]`
at width 4 (the width escalates once the table reaches 8 entries), i.e.
the buffer `[68, 52, 5]`. -/
theorem escalated_packing_decodes :
    LZWAlgorythm 2 3 (bytesOf [68, 52, 5]) = LZWResult.ok [0, 1, 2, 3] := by
  decide


lemma myv_append_inv (v : myvector) (n : Nat) (pt : List Nat) (ok : Bool)
    (hv : myv_inv v) : myv_inv (myv_append v n pt ok) := by
  unfold myv_inv at hv ⊢
  cases hp : v.ptr with
  | none => simp only [myv_append, hp]; exact hv
  | some data =>
    simp only [myv_append, hp]
    split_ifs <;> simp <;> omega

/-- C10: every `myvector` operation keeps the logical element count within
the allocated capacity, and an allocation failure in `myv_init`,
`myv_realloc` or a growing `myv_append` zeroes both counters, so no vector
ever claims more elements than its storage holds. -/
theorem myv_ops_preserve_inv (v w : myvector) (el_sz el a n : Nat)
    (pt : List Nat) (fixed ok : Bool) (hv : myv_inv v) :
    myv_inv (myv_init el_sz el fixed ok) ∧
    myv_inv (myv_clear v) ∧
    myv_inv (myv_realloc v a ok) ∧
    myv_inv (myv_append v n pt ok) ∧
    myv_inv (myv_copy v w ok) ∧
    ((myv_init el_sz el fixed false).elements = 0 ∧
      (myv_init el_sz el fixed false).alloc_elements = 0) ∧
    (v.ptr ≠ none →
      (myv_realloc v a false).elements = 0 ∧
      (myv_realloc v a false).alloc_elements = 0) ∧
    (v.ptr ≠ none → v.alloc_elements < v.elements + n →
      (myv_append v n pt false).elements = 0 ∧
      (myv_append v n pt false).alloc_elements = 0) := by
  refine ⟨?_, ?_, ?_, myv_append_inv v n pt ok hv, ?_, ?_, ?_, ?_⟩
  · unfold myv_inv myv_init
    split_ifs <;> simp_all
  · unfold myv_inv myv_clear
    simp
  · unfold myv_inv at hv ⊢
    cases hp : v.ptr with
    | none => simp only [myv_realloc, hp]; exact hv
    | some data =>
      simp only [myv_realloc, hp]
      split_ifs <;> simp <;> omega
  · unfold myv_copy
    split_ifs with hne
    · exact myv_append_inv _ _ _ _ (by unfold myv_inv; simp)
    · unfold myv_inv
      simp
  · unfold myv_init
    split_ifs <;> simp_all
  · intro hp
    cases hsome : v.ptr with
    | none => exact absurd hsome hp
    | some data =>
      simp only [myv_realloc, hsome]
      simp
  · intro hp hover
    cases hsome : v.ptr with
    | none => exact absurd hsome hp
    | some data =>
      simp only [myv_append, hsome]
      simp [hover]

/-- Witness for C10 at a concrete allocated vector (3 live elements in a
5-slot allocation). -/
theorem myv_ops_preserve_inv_witness :
    myv_inv (myv_init 2 3 false true) ∧
    myv_inv (myv_clear wVec) ∧
    myv_inv (myv_realloc wVec 4 true) ∧
    myv_inv (myv_append wVec 2 [7, 8] true) ∧
    myv_inv (myv_copy wVec wVec true) ∧
    ((myv_init 2 3 false false).elements = 0 ∧
      (myv_init 2 3 false false).alloc_elements = 0) ∧
    (wVec.ptr ≠ none →
      (myv_realloc wVec 4 false).elements = 0 ∧
      (myv_realloc wVec 4 false).alloc_elements = 0) ∧
    (wVec.ptr ≠ none → wVec.alloc_elements < wVec.elements + 2 →
      (myv_append wVec 2 [7, 8] false).elements = 0 ∧
      (myv_append wVec 2 [7, 8] false).alloc_elements = 0) :=
  myv_ops_preserve_inv wVec wVec 2 3 4 2 [7, 8] false true
    (by unfold myv_inv wVec; decide)


lemma c1bytes_readCode (st : LZWState) (hind : 1 ≤ st.ind) :
    readCode c1bytes st = 0 := by
  have h0 : st.ind ≠ 0 := by omega
  have h1 : st.ind + 1 ≠ 0 := by omega
  have h2 : st.ind + 2 ≠ 0 := by omega
  simp [readCode, c1bytes, h0, h1, h2]

lemma lzwSteps_frozen (cs len : Nat) (bytes : Nat → Nat) (n : Nat)
    (st : LZWState) (h : len < st.ind) :
    lzwSteps cs len bytes n st = Sum.inl st := by
  cases n with
  | zero => rfl
  | succ n => simp [lzwSteps, h]

lemma lzwSteps_add (cs len : Nat) (bytes : Nat → Nat) (m n : Nat) :
    ∀ st, lzwSteps cs len bytes (m + n) st =
      match lzwSteps cs len bytes m st with
      | Sum.inl st' => lzwSteps cs len bytes n st'
      | Sum.inr r => Sum.inr r := by
  induction m with
  | zero =>
    intro st
    rw [Nat.zero_add]
    rfl
  | succ m ih =>
    intro st
    rw [Nat.succ_add]
    by_cases hg : len < st.ind
    · rw [lzwSteps_frozen cs len bytes (m + n + 1) st hg,
        lzwSteps_frozen cs len bytes (m + 1) st hg]
      show Sum.inl st = lzwSteps cs len bytes n st
      rw [lzwSteps_frozen cs len bytes n st hg]
    · simp only [lzwSteps, hg, if_false]
      cases hstep : lzwStep cs bytes st with
      | inl st' => exact ih st'
      | inr r => rfl

lemma zeroRun_step (m : Nat) (st : LZWState) (h : zeroRunInv m st) :
    ∃ st', lzwStep 2 c1bytes st = Sum.inl st' ∧ zeroRunInv (m + 1) st' := by
  obtain ⟨htab, hs, hold, hind, hbits, hflag⟩ := h
  have hcode : readCode c1bytes st = 0 := c1bytes_readCode st hind
  have hlen : st.lzw_table.length = 7 + m := by
    rw [htab]
    simp [c1base]
    omega
  have hpos : 0 < st.lzw_table.length := by omega
  have hentry0 : st.lzw_table.getD 0 [] = [0] := by
    rw [htab]
    rw [List.getD_append _ _ _ _ (by simp [c1base])]
    decide
  have hshift : ∀ c : Nat, (1 : Nat) <<< c = 2 ^ c := by
    intro c
    rw [Nat.shiftLeft_eq, one_mul]
  have hdm := Nat.div_add_mod (st.offset + st.csize) 8
  have hsfield : st.lzw_table.getD st.oldcode [] ++
      [(st.lzw_table.getD (readCode c1bytes st) []).headD 0] = [0, 0] := by
    rw [hold, hcode, hentry0]
    rfl
  have hcsle : st.csize ≤ 12 := by
    rcases hflag with ⟨_, _, _, _, hc⟩ | ⟨_, hc, _⟩ <;> omega
  obtain ⟨A, hA_tab, hA_cs, hA_mask, hA_flag, hA_s, hA_old, hA_off,
      hA_ind, hstep⟩ :
      ∃ A : LZWState, A.lzw_table = st.lzw_table ∧ A.csize = st.csize ∧
        A.mask = st.mask ∧ A.flag = st.flag ∧ A.s = [0, 0] ∧
        A.oldcode = 0 ∧ A.offset = (st.offset + st.csize) % 8 ∧
        A.ind = st.ind + (st.offset + st.csize) / 8 ∧
        lzwStep 2 c1bytes st = Sum.inl (insertAndCheck A) := by
    rcases hflag with ⟨hf, _, _, _, _⟩ | ⟨hf, _, _⟩
    · refine ⟨{ st with
          lzw_codes := st.lzw_codes ++
            st.lzw_table.getD (readCode c1bytes st) [],
          s := st.lzw_table.getD st.oldcode [] ++
            [(st.lzw_table.getD (readCode c1bytes st) []).headD 0],
          oldcode := readCode c1bytes st,
          offset := (st.offset + st.csize) % 8,
          ind := st.ind + (st.offset + st.csize) / 8 },
        rfl, rfl, rfl, rfl, hsfield, hcode, rfl, rfl, ?_⟩
      simp only [lzwStep, hf]
      simp [hcode, hpos]
    · refine ⟨{ st with
          lzw_codes := st.lzw_codes ++
            st.lzw_table.getD (readCode c1bytes st) [],
          oldcode := readCode c1bytes st,
          offset := (st.offset + st.csize) % 8,
          ind := st.ind + (st.offset + st.csize) / 8 },
        rfl, rfl, rfl, rfl, hs, hcode, rfl, rfl, ?_⟩
      simp only [lzwStep, hf]
      simp [hcode]
  refine ⟨_, hstep, ?_, ?_, ?_, ?_, ?_, ?_⟩
  · rw [insertAndCheck_lzw_table, hA_tab, hA_s, htab,
      List.replicate_succ', ← List.append_assoc]
  · rw [insertAndCheck_s]
    exact hA_s
  · rw [insertAndCheck_oldcode]
    exact hA_old
  · rw [insertAndCheck_ind, hA_ind]
    omega
  · rw [insertAndCheck_ind, insertAndCheck_offset, hA_ind, hA_off]
    omega
  · have hlenA : A.lzw_table.length + 1 = 8 + m := by
      rw [hA_tab]
      omega
    rcases hflag with ⟨hf, hc1, hc2, hc3, hc4⟩ | ⟨hf, hc12, hc4096⟩
    · by_cases hpow : 8 + m = 2 ^ st.csize
      · by_cases hmax : st.csize < MAX_CSIZE
        · obtain ⟨hc, hm2, hf2⟩ := insertAndCheck_of_eq_lt A
            (by rw [hlenA, hA_cs, hshift]; omega) (by rw [hA_cs]; exact hmax)
          left
          have h2p : 2 ^ (st.csize + 1) = 2 * 2 ^ st.csize := by
            rw [pow_succ]
            omega
          rw [hc, hA_cs, hf2, hA_flag, hf]
          have hmax12 : st.csize < 12 := hmax
          refine ⟨rfl, ?_, ?_, by omega, by omega⟩
          · simp
            omega
          · omega
        · obtain ⟨hc, hm2, hf2⟩ := insertAndCheck_of_eq_ge A
            (by rw [hlenA, hA_cs, hshift]; omega) (by rw [hA_cs]; exact hmax)
          right
          have hcs12 : st.csize = 12 := by
            have : ¬ st.csize < 12 := hmax
            omega
          rw [hf2, hc, hA_cs, hcs12]
          have h4096 : (2 : Nat) ^ 12 = 4096 := by norm_num
          rw [hcs12] at hpow
          exact ⟨rfl, rfl, by omega⟩
      · obtain ⟨hc, hm2, hf2⟩ := insertAndCheck_of_ne A
          (by rw [hlenA, hA_cs, hshift]; omega)
        left
        rw [hc, hA_cs, hf2, hA_flag, hf]
        refine ⟨rfl, by omega, by omega, by omega, by omega⟩
    · obtain ⟨hc, hm2, hf2⟩ := insertAndCheck_of_ne A
        (by rw [hlenA, hA_cs, hc12, hshift]
            norm_num
            omega)
      right
      rw [hf2, hA_flag, hf, hc, hA_cs, hc12]
      exact ⟨rfl, rfl, by omega⟩

lemma zeroRun_steps (n : Nat) : ∀ m st, zeroRunInv m st → m + n ≤ 4097 →
    ∃ st', lzwSteps 2 8000 c1bytes n st = Sum.inl st' ∧
      zeroRunInv (m + n) st' := by
  induction n with
  | zero =>
    intro m st hinv _
    exact ⟨st, rfl, hinv⟩
  | succ n ih =>
    intro m st hinv hle
    have hguard : ¬ 8000 < st.ind := by
      have hbits := hinv.2.2.2.2.1
      omega
    obtain ⟨st1, hstep, hinv1⟩ := zeroRun_step m st hinv
    obtain ⟨st', hrun, hinv'⟩ := ih (m + 1) st1 hinv1 (by omega)
    refine ⟨st', ?_, by rw [show m + (n + 1) = m + 1 + n by omega]; exact hinv'⟩
    simp only [lzwSteps, hguard, if_false]
    rw [hstep]
    exact hrun

/-- C1: the claim says the dictionary never exceeds 4096 entries and that
insertion becomes a no-op once it reaches 4096.  The code violates this:
in the Deferred state the dictionary-code branch still appends a (stale)
entry per code.  Concretely, decoding the stream whose first byte is 4 and
whose remaining bytes are 0 (ClearCode followed by the literal 0 repeated,
at every width) grows the table to 4096 after 4092 loop iterations — and
eight further iterations leave it at 4104 entries, past the claimed
ceiling. -/
theorem deferred_mode_table_growth :
    4096 < stateTableLen (lzwSteps 2 8000 c1bytes 4100 (initState 2)) := by
  have hsplit := lzwSteps_add 2 8000 c1bytes 3 4097 (initState 2)
  rw [show (3 : Nat) + 4097 = 4100 from rfl] at hsplit
  have h3 : lzwSteps 2 8000 c1bytes 3 (initState 2) = Sum.inl c1st3 := by
    decide
  rw [hsplit, h3]
  obtain ⟨st', hrun, hinv⟩ := zeroRun_steps 4097 0 c1st3
    (by unfold zeroRunInv; decide) (by omega)
  show 4096 < stateTableLen (lzwSteps 2 8000 c1bytes 4097 c1st3)
  rw [hrun]
  show 4096 < st'.lzw_table.length
  rw [hinv.1, List.length_append, List.length_replicate]
  have hbase : c1base.length = 7 := by decide
  omega

end AnimImage
